import Mathlib

/-!
# Formal model of the smartwatch battery schedulers

A shallow embedding, over the exact rationals `ℚ`, of the three charge
schedulers of the repository:

* `greedy_algorithm`          (src/battery_scheduler.py, lines 5-35)
* `segmented_charge_planner`  (src/battery_scheduler.py, lines 38-95)
* `upgraded_battery_scheduler` (src/main.py, lines 13-94)

Python floats are modelled as exact rationals; Python's `round(x, n)`
(banker's rounding, half to even) is modelled by `pyRound`; a raised
`ZeroDivisionError` in the priority scheduler is modelled by the explicit
result `PrioRes.divByZero`.  The two `while` loops that do not always
advance the task cursor (segmented: a charge iteration re-examines the same
task; priority: the `continue` branch) are embedded with an explicit fuel
parameter; `SegRes.fuelOut` / `PrioRes.fuelOut` mark fuel exhaustion, and
the development proves that fuel `2 * length + 1` always suffices, which is
the termination argument for the original loops.

Besides the scheduler results, each simulation loop also records the list
of values taken by its battery variable (one entry per assignment to the
variable in the Python source), so that invariants about the simulated
charge can be stated.
-/

namespace BatterySched

/-- A task of the two legacy schedulers: `(duration, drain_rate)`. -/
abbrev Task := ℚ × ℚ

/-- Task priority of the upgraded scheduler: `"high" | "med" | "low"`. -/
inductive Priority
  | high
  | med
  | low
deriving DecidableEq, Repr

/-- A task of the upgraded scheduler: `{duration, drain_rate, priority}`. -/
structure PTask where
  duration : ℚ
  drain_rate : ℚ
  priority : Priority
deriving DecidableEq, Repr

/-- Round to the nearest integer, ties to the even integer, as Python's
builtin `round` does on an exact value. -/
def roundHalfEven (x : ℚ) : ℤ :=
  let f : ℤ := ⌊x⌋
  let frac : ℚ := x - f
  if frac < 1 / 2 then f
  else if 1 / 2 < frac then f + 1
  else if f % 2 = 0 then f else f + 1

/-- Python's `round(x, digits)` on an exact value. -/
def pyRound (digits : ℕ) (x : ℚ) : ℚ :=
  (roundHalfEven (x * 10 ^ digits) : ℚ) / 10 ^ digits

/-- Sum of the `duration` fields of a legacy task list. -/
def sumDur : List Task → ℚ
  | [] => 0
  | (d, _) :: rest => d + sumDur rest

/-- Sum of the energy demands `duration * drain_rate` of a legacy task list. -/
def sumEnergy : List Task → ℚ
  | [] => 0
  | (d, r) :: rest => d * r + sumEnergy rest

/-- The pre-check of `greedy_algorithm`: is there a task whose energy demand
`duration * drain_rate` strictly exceeds the capacity? -/
def anyOverCapacity (cap : ℚ) (tasks : List Task) : Bool :=
  tasks.any fun p => decide (cap < p.1 * p.2)

/-- The main loop of `greedy_algorithm` (src/battery_scheduler.py, lines
23-33).  First component: the value of `total_time` at loop exit; second
component: the successive values assigned to `current_battery`. -/
def greedyLoop (cap rate : ℚ) : ℚ → ℚ → List Task → ℚ × List ℚ
  | _, total, [] => (total, [])
  | battery, total, (d, r) :: rest =>
    let energy := d * r
    let optimal := min energy cap
    if battery < optimal then
      let chargeTime := (optimal - battery) / rate
      let res := greedyLoop cap rate (optimal - energy) (total + chargeTime + d) rest
      (res.1, optimal :: (optimal - energy) :: res.2)
    else
      let res := greedyLoop cap rate (battery - energy) (total + d) rest
      (res.1, (battery - energy) :: res.2)

/-- `greedy_algorithm(battery_capacity, initial_battery, tasks, charge_rate)`
(src/battery_scheduler.py, lines 5-35). -/
def greedy_algorithm (cap init : ℚ) (tasks : List Task) (rate : ℚ) : ℚ :=
  if tasks = [] then 0
  else if anyOverCapacity cap tasks then -1
  else if rate ≤ 0 then -1
  else pyRound 1 (greedyLoop cap rate init 0 tasks).1

/-- The successive values of `current_battery` during a `greedy_algorithm`
run (empty when the function returns before simulating). -/
def greedyTrace (cap init : ℚ) (tasks : List Task) (rate : ℚ) : List ℚ :=
  if tasks = [] then []
  else if anyOverCapacity cap tasks then []
  else if rate ≤ 0 then []
  else (greedyLoop cap rate init 0 tasks).2

/-- The floating-point tolerance `epsilon = 1e-9` of
`segmented_charge_planner`. -/
def epsilon : ℚ := 1 / 10 ^ 9

/-- The inner look-ahead loop of `segmented_charge_planner`
(src/battery_scheduler.py, lines 70-83): starting from accumulated energy
`acc`, scan forward; `none` models the `return -1.0` taken when a scanned
task alone exceeds capacity (beyond `epsilon`), otherwise the accumulated
`energy_needed` at the `break` (or end of list) is returned. -/
def lookahead (cap : ℚ) (acc : ℚ) : List Task → Option ℚ
  | [] => some acc
  | (d, r) :: rest =>
    let e := d * r
    if cap + epsilon < e then none
    else if cap + epsilon < acc + e then some acc
    else lookahead cap (acc + e) rest

/-- Result of the main loop of `segmented_charge_planner`:
`finish total` models falling out of the `while` with that `total_time`,
`infeasible` models a `return -1.0` from inside the loop, `fuelOut` marks
exhaustion of the explicit fuel. -/
inductive SegRes
  | finish (total : ℚ)
  | infeasible
  | fuelOut
deriving DecidableEq, Repr

/-- The main `while` loop of `segmented_charge_planner`
(src/battery_scheduler.py, lines 58-93), with explicit fuel.  First
component: the loop result; second component: the successive values
assigned to `battery` (one entry per executed task, one entry per charge
cycle after the cap at capacity). -/
def segLoop (cap rate : ℚ) : ℕ → ℚ → ℚ → List Task → SegRes × List ℚ
  | 0, _, _, _ => (SegRes.fuelOut, [])
  | _ + 1, _, total, [] => (SegRes.finish total, [])
  | fuel + 1, battery, total, (d, r) :: rest =>
    let drain := d * r
    if cap + epsilon < drain then (SegRes.infeasible, [])
    else if drain - epsilon ≤ battery then
      let res := segLoop cap rate fuel (battery - drain) (total + d) rest
      (res.1, (battery - drain) :: res.2)
    else
      match lookahead cap 0 ((d, r) :: rest) with
      | none => (SegRes.infeasible, [])
      | some energyNeeded =>
        let target := min energyNeeded cap
        let chargeNeeded := target - battery
        let idle := chargeNeeded / rate
        let battery2 := min (battery + idle * rate) cap
        let res := segLoop cap rate fuel battery2 (total + idle) ((d, r) :: rest)
        (res.1, battery2 :: res.2)

/-- `segmented_charge_planner(battery_capacity, initial_battery, tasks,
charge_rate)` (src/battery_scheduler.py, lines 38-95).  `none` would mark
fuel exhaustion; the development proves it never occurs.  When
`charge_rate ≤ 0` the source scans the tasks and returns `-1.0` whether or
not it finds one over capacity, so that branch is a plain `-1`. -/
def segmented_charge_planner (cap init : ℚ) (tasks : List Task) (rate : ℚ) :
    Option ℚ :=
  if tasks = [] then some 0
  else if rate ≤ 0 then some (-1)
  else
    match (segLoop cap rate (2 * tasks.length + 1) init 0 tasks).1 with
    | SegRes.finish t => some (pyRound 1 t)
    | SegRes.infeasible => some (-1)
    | SegRes.fuelOut => none

/-- The successive values of `battery` during a `segmented_charge_planner`
run (empty when the function returns before entering its loop). -/
def segTrace (cap init : ℚ) (tasks : List Task) (rate : ℚ) : List ℚ :=
  if tasks = [] then []
  else if rate ≤ 0 then []
  else (segLoop cap rate (2 * tasks.length + 1) init 0 tasks).2

/-- The inner estimation loop of `upgraded_battery_scheduler`
(src/main.py, lines 58-72): scan forward from the current task, breaking as
soon as adding a task's energy would push the running total over capacity;
a `high` task is always added, a `med` task only while the (fixed) battery
reading is below `lim * cap`, a `low` task is never added but does not stop
the scan.  Returns the final `total_energy`. -/
def prioLookahead (cap lim battery : ℚ) : ℚ → List PTask → ℚ
  | acc, [] => acc
  | acc, t :: rest =>
    let e := t.duration * t.drain_rate
    if cap < acc + e then acc
    else if t.priority = Priority.high then prioLookahead cap lim battery (acc + e) rest
    else if t.priority = Priority.med ∧ battery < lim * cap then
      prioLookahead cap lim battery (acc + e) rest
    else prioLookahead cap lim battery acc rest

/-- Result of the `upgraded_battery_scheduler` loop: `finish total` models a
normal return, `infeasible` the `return -1.0` for an impossible `high`
task, `divByZero` a raised `ZeroDivisionError` (the source divides by
`charge_efficiency` and then by `charge_rate` with no guard), `fuelOut`
exhaustion of the explicit fuel. -/
inductive PrioRes
  | finish (total : ℚ)
  | infeasible
  | divByZero
  | fuelOut
deriving DecidableEq, Repr

/-- The main `while` loop of `upgraded_battery_scheduler` (src/main.py,
lines 40-92), with explicit fuel.  First component: the loop result; second
component: the successive values assigned to `battery` (one entry per
executed task, one entry per charge cycle after the cap at capacity). -/
def prioLoop (cap rate eff lim : ℚ) : ℕ → ℚ → ℚ → List PTask → PrioRes × List ℚ
  | 0, _, _, _ => (PrioRes.fuelOut, [])
  | _ + 1, _, total, [] => (PrioRes.finish total, [])
  | fuel + 1, battery, total, t :: rest =>
    let energyNeeded := t.duration * t.drain_rate
    if cap < energyNeeded then
      if t.priority = Priority.high then (PrioRes.infeasible, [])
      else prioLoop cap rate eff lim fuel battery total rest
    else if energyNeeded ≤ battery then
      let res := prioLoop cap rate eff lim fuel (battery - energyNeeded) (total + t.duration) rest
      (res.1, (battery - energyNeeded) :: res.2)
    else
      let totalEnergy := prioLookahead cap lim battery 0 (t :: rest)
      let baseTarget := min (max totalEnergy energyNeeded) cap
      let capLimit := lim * cap
      let target := if capLimit < energyNeeded then baseTarget else min baseTarget capLimit
      if target ≤ battery then
        prioLoop cap rate eff lim fuel battery total (t :: rest)
      else if eff = 0 ∨ rate = 0 then (PrioRes.divByZero, [])
      else
        let toCharge := (target - battery) / eff
        let idle := toCharge / rate
        let battery2 := min (battery + idle * rate * eff) cap
        let res := prioLoop cap rate eff lim fuel battery2 (total + idle) (t :: rest)
        (res.1, battery2 :: res.2)

/-- `upgraded_battery_scheduler(tasks, battery_capacity, initial_battery,
charge_rate, charge_efficiency, full_limit)` (src/main.py, lines 13-94).
The Python defaults are `eff = 0.95` and `lim = 0.90`. -/
def upgraded_battery_scheduler (tasks : List PTask) (cap init rate eff lim : ℚ) :
    PrioRes :=
  match (prioLoop cap rate eff lim (2 * tasks.length + 1) init 0 tasks).1 with
  | PrioRes.finish t => PrioRes.finish (pyRound 2 t)
  | r => r

/-- The successive values of `battery` during an
`upgraded_battery_scheduler` run. -/
def prioTrace (tasks : List PTask) (cap init rate eff lim : ℚ) : List ℚ :=
  (prioLoop cap rate eff lim (2 * tasks.length + 1) init 0 tasks).2

/-- The charge target computed by a charge iteration of
`upgraded_battery_scheduler` at task `τ` with battery reading `b`: the
`target` local of src/main.py lines 74-82, named so that theorems can refer
to it. -/
def prioTarget (cap lim b : ℚ) (τ : PTask) (rest : List PTask) : ℚ :=
  let energyNeeded := τ.duration * τ.drain_rate
  let totalEnergy := prioLookahead cap lim b 0 (τ :: rest)
  let baseTarget := min (max totalEnergy energyNeeded) cap
  let capLimit := lim * cap
  if capLimit < energyNeeded then baseTarget else min baseTarget capLimit

/-! ## The micro-grid

`epsilon`-sensitive comparisons of the segmented planner become exact when
every quantity that reaches a comparison is an integer multiple of `1e-6`:
the gap between two distinct such multiples is at least `1e-6 > epsilon`.
`Grid x` states that `x` is such a multiple. -/

def Grid (x : ℚ) : Prop := ∃ k : ℤ, x = (k : ℚ) / 1000000

/-! ## Basic facts about the model -/

theorem epsilon_pos : 0 < epsilon := by norm_num [epsilon]

theorem roundHalfEven_nonneg (x : ℚ) (hx : 0 ≤ x) : 0 ≤ roundHalfEven x := by
  have hf : 0 ≤ ⌊x⌋ := Int.floor_nonneg.mpr hx
  unfold roundHalfEven
  dsimp only
  split
  · exact hf
  · split
    · omega
    · split
      · exact hf
      · omega

theorem pyRound_nonneg (n : ℕ) (x : ℚ) (hx : 0 ≤ x) : 0 ≤ pyRound n x := by
  unfold pyRound
  have h1 : 0 ≤ x * 10 ^ n := by positivity
  have h2 : (0 : ℚ) ≤ (roundHalfEven (x * 10 ^ n) : ℚ) := by
    exact_mod_cast roundHalfEven_nonneg _ h1
  positivity

theorem sumDur_nonneg (l : List Task) (h : ∀ p ∈ l, 0 ≤ p.1) : 0 ≤ sumDur l := by
  induction l with
  | nil => simp [sumDur]
  | cons p rest ih =>
    obtain ⟨d, r⟩ := p
    have hd := h (d, r) (List.mem_cons_self _ _)
    have hrest := ih fun q hq => h q (List.mem_cons_of_mem _ hq)
    simp only [sumDur]
    linarith

theorem sumEnergy_nonneg (l : List Task) (h : ∀ p ∈ l, 0 ≤ p.1 * p.2) :
    0 ≤ sumEnergy l := by
  induction l with
  | nil => simp [sumEnergy]
  | cons p rest ih =>
    obtain ⟨d, r⟩ := p
    have hd := h (d, r) (List.mem_cons_self _ _)
    have hrest := ih fun q hq => h q (List.mem_cons_of_mem _ hq)
    simp only [sumEnergy] at *
    linarith

theorem anyOverCapacity_eq_false (cap : ℚ) (l : List Task)
    (h : ∀ p ∈ l, p.1 * p.2 ≤ cap) : anyOverCapacity cap l = false := by
  simp only [anyOverCapacity, List.any_eq_false, decide_eq_true_eq]
  intro p hp
  exact not_lt.mpr (h p hp)

theorem grid_zero : Grid 0 := ⟨0, by norm_num⟩

theorem grid_add {a b : ℚ} (ha : Grid a) (hb : Grid b) : Grid (a + b) := by
  obtain ⟨j, rfl⟩ := ha
  obtain ⟨k, rfl⟩ := hb
  exact ⟨j + k, by push_cast; ring⟩

theorem grid_sub {a b : ℚ} (ha : Grid a) (hb : Grid b) : Grid (a - b) := by
  obtain ⟨j, rfl⟩ := ha
  obtain ⟨k, rfl⟩ := hb
  exact ⟨j - k, by push_cast; ring⟩

theorem grid_min {a b : ℚ} (ha : Grid a) (hb : Grid b) : Grid (min a b) := by
  rcases min_choice a b with h | h <;> rw [h]
  · exact ha
  · exact hb

/-- On the grid, strict comparison is insensitive to an `epsilon` slack. -/
theorem grid_add_epsilon_lt {a b : ℚ} (ha : Grid a) (hb : Grid b) :
    a + epsilon < b ↔ a < b := by
  constructor
  · intro h
    have := epsilon_pos
    linarith
  · intro h
    obtain ⟨j, rfl⟩ := ha
    obtain ⟨k, rfl⟩ := hb
    have hjk : j < k := by
      have := (div_lt_div_iff_of_pos_right (c := (1000000 : ℚ)) (by norm_num)).mp h
      exact_mod_cast this
    have h1 : (j : ℚ) + 1 ≤ (k : ℚ) := by exact_mod_cast hjk
    have h2 : ((j : ℚ) + 1) / 1000000 ≤ (k : ℚ) / 1000000 := by
      apply div_le_div_of_nonneg_right h1
      norm_num
    have h3 : (j : ℚ) / 1000000 + epsilon < ((j : ℚ) + 1) / 1000000 := by
      rw [epsilon]
      rw [add_div]
      norm_num
    linarith

/-- On the grid, non-strict comparison is insensitive to an `epsilon` slack. -/
theorem grid_sub_epsilon_le {a b : ℚ} (ha : Grid a) (hb : Grid b) :
    a - epsilon ≤ b ↔ a ≤ b := by
  constructor
  · intro h
    by_contra hab
    push_neg at hab
    have := (grid_add_epsilon_lt hb ha).mpr hab
    linarith
  · intro h
    have := epsilon_pos
    linarith

/-! ## The greedy scheduler: closed form and charge invariant -/

/-- Closed form for the greedy main loop: when every energy demand fits the
capacity, the loop exits with total time `initial total + total duration +
(missing energy) / charge rate`. -/
theorem greedyLoop_fst (cap rate : ℚ) :
    ∀ (l : List Task) (b t : ℚ), 0 ≤ b →
      (∀ p ∈ l, 0 ≤ p.1 ∧ 0 ≤ p.2 ∧ p.1 * p.2 ≤ cap) →
      (greedyLoop cap rate b t l).1 =
        t + sumDur l + max (sumEnergy l - b) 0 / rate := by
  intro l
  induction l with
  | nil =>
    intro b t hb _
    have hmax : max (0 - b) 0 = 0 := max_eq_right (by linarith)
    simp only [greedyLoop, sumDur, sumEnergy, hmax, zero_div, add_zero]
  | cons p rest ih =>
    obtain ⟨d, r⟩ := p
    intro b t hb hl
    obtain ⟨hd, hr, hcap⟩ := hl (d, r) (List.mem_cons_self _ _)
    have hrest := fun q hq => hl q (List.mem_cons_of_mem _ hq)
    have he : 0 ≤ d * r := mul_nonneg hd hr
    have hse : 0 ≤ sumEnergy rest :=
      sumEnergy_nonneg rest fun q hq => mul_nonneg (hrest q hq).1 (hrest q hq).2.1
    have hopt : min (d * r) cap = d * r := min_eq_left hcap
    simp only [greedyLoop, hopt, sub_self]
    by_cases hlt : b < d * r
    · rw [if_pos hlt]
      rw [ih 0 (t + (d * r - b) / rate + d) le_rfl hrest]
      have h1 : max (sumEnergy rest - 0) 0 = sumEnergy rest := by
        rw [sub_zero]; exact max_eq_left hse
      have h2 : max (sumEnergy ((d, r) :: rest) - b) 0 =
          d * r + sumEnergy rest - b := by
        apply max_eq_left
        simp only [sumEnergy]
        linarith
      rw [h1, h2]
      simp only [sumDur, sumEnergy]
      rw [show d * r + sumEnergy rest - b = (d * r - b) + sumEnergy rest by ring, add_div]
      ring
    · rw [if_neg hlt]
      push_neg at hlt
      rw [ih (b - d * r) (t + d) (by linarith) hrest]
      have h2 : max (sumEnergy rest - (b - d * r)) 0 =
          max (sumEnergy ((d, r) :: rest) - b) 0 := by
        congr 1
        simp only [sumEnergy]
        ring
      rw [h2]
      simp only [sumDur]
      ring

/-- Charge invariant of the greedy main loop: every value assigned to
`current_battery` stays within `[0, cap]`. -/
theorem greedyLoop_snd (cap rate : ℚ) :
    ∀ (l : List Task) (b t : ℚ), 0 ≤ b → b ≤ cap →
      (∀ p ∈ l, 0 ≤ p.1 ∧ 0 ≤ p.2 ∧ p.1 * p.2 ≤ cap) →
      ∀ x ∈ (greedyLoop cap rate b t l).2, 0 ≤ x ∧ x ≤ cap := by
  intro l
  induction l with
  | nil =>
    intro b t _ _ _ x hx
    simp [greedyLoop] at hx
  | cons p rest ih =>
    obtain ⟨d, r⟩ := p
    intro b t hb hbc hl
    obtain ⟨hd, hr, hcap⟩ := hl (d, r) (List.mem_cons_self _ _)
    have hrest := fun q hq => hl q (List.mem_cons_of_mem _ hq)
    have he : 0 ≤ d * r := mul_nonneg hd hr
    have hcap0 : 0 ≤ cap := le_trans hb hbc
    have hopt : min (d * r) cap = d * r := min_eq_left hcap
    intro x hx
    simp only [greedyLoop, hopt, sub_self] at hx
    by_cases hlt : b < d * r
    · rw [if_pos hlt] at hx
      simp only [List.mem_cons] at hx
      rcases hx with rfl | rfl | hx
      · exact ⟨he, hcap⟩
      · exact ⟨le_rfl, hcap0⟩
      · exact ih 0 _ le_rfl hcap0 hrest x hx
    · rw [if_neg hlt] at hx
      push_neg at hlt
      simp only [List.mem_cons] at hx
      rcases hx with rfl | hx
      · constructor
        · linarith
        · linarith
      · exact ih (b - d * r) _ (by linarith) (by linarith) hrest x hx

/-! ## The segmented planner: look-ahead properties -/

theorem lookahead_ge_acc (cap : ℚ) :
    ∀ (l : List Task) (acc en : ℚ), (∀ p ∈ l, 0 ≤ p.1 * p.2) →
      lookahead cap acc l = some en → acc ≤ en := by
  intro l
  induction l with
  | nil =>
    intro acc en _ h
    simp only [lookahead, Option.some.injEq] at h
    exact le_of_eq h
  | cons p rest ih =>
    obtain ⟨d, r⟩ := p
    intro acc en hl h
    have he := hl (d, r) (List.mem_cons_self _ _)
    have hrest := fun q hq => hl q (List.mem_cons_of_mem _ hq)
    simp only [lookahead] at h
    split at h
    · exact absurd h (by simp)
    · split at h
      · simp only [Option.some.injEq] at h
        exact le_of_eq h
      · have := ih (acc + d * r) en hrest h
        simp only at he
        linarith

theorem lookahead_le_acc_add (cap : ℚ) :
    ∀ (l : List Task) (acc en : ℚ), (∀ p ∈ l, 0 ≤ p.1 * p.2) →
      lookahead cap acc l = some en → en ≤ acc + sumEnergy l := by
  intro l
  induction l with
  | nil =>
    intro acc en _ h
    simp only [lookahead, Option.some.injEq] at h
    simp only [sumEnergy]
    linarith [h.symm.le]
  | cons p rest ih =>
    obtain ⟨d, r⟩ := p
    intro acc en hl h
    have he := hl (d, r) (List.mem_cons_self _ _)
    have hrest := fun q hq => hl q (List.mem_cons_of_mem _ hq)
    have hse : 0 ≤ sumEnergy rest := sumEnergy_nonneg rest hrest
    simp only at he
    simp only [lookahead] at h
    simp only [sumEnergy]
    split at h
    · exact absurd h (by simp)
    · split at h
      · simp only [Option.some.injEq] at h
        linarith [h.symm.le]
      · have := ih (acc + d * r) en hrest h
        linarith

theorem lookahead_some (cap : ℚ) :
    ∀ (l : List Task) (acc : ℚ), (∀ p ∈ l, p.1 * p.2 ≤ cap) →
      ∃ en, lookahead cap acc l = some en := by
  intro l
  induction l with
  | nil => intro acc _; exact ⟨acc, rfl⟩
  | cons p rest ih =>
    obtain ⟨d, r⟩ := p
    intro acc hl
    have he := hl (d, r) (List.mem_cons_self _ _)
    have hrest := fun q hq => hl q (List.mem_cons_of_mem _ hq)
    simp only at he
    have h1 : ¬ (cap + epsilon < d * r) := by
      have := epsilon_pos
      push_neg
      linarith
    simp only [lookahead, h1, if_false]
    split
    · exact ⟨acc, rfl⟩
    · exact ih (acc + d * r) hrest

theorem lookahead_grid (cap : ℚ) (hgc : Grid cap) :
    ∀ (l : List Task) (acc en : ℚ), Grid acc →
      (∀ p ∈ l, Grid (p.1 * p.2)) →
      lookahead cap acc l = some en → Grid en ∧ (acc ≤ cap → en ≤ cap) := by
  intro l
  induction l with
  | nil =>
    intro acc en hacc _ h
    simp only [lookahead, Option.some.injEq] at h
    exact ⟨h ▸ hacc, fun hc => h ▸ hc⟩
  | cons p rest ih =>
    obtain ⟨d, r⟩ := p
    intro acc en hacc hl h
    have he := hl (d, r) (List.mem_cons_self _ _)
    have hrest := fun q hq => hl q (List.mem_cons_of_mem _ hq)
    simp only at he
    simp only [lookahead] at h
    split at h
    · exact absurd h (by simp)
    · split at h
      · simp only [Option.some.injEq] at h
        exact ⟨h ▸ hacc, fun hc => h ▸ hc⟩
      · rename_i hbreak
        push_neg at hbreak
        have hsum : acc + d * r ≤ cap := by
          by_contra hcon
          push_neg at hcon
          exact absurd ((grid_add_epsilon_lt hgc (grid_add hacc he)).mpr hcon)
            (not_lt.mpr hbreak)
        have := ih (acc + d * r) en (grid_add hacc he) hrest h
        exact ⟨this.1, fun _ => this.2 hsum⟩

/-- Unfolding the look-ahead over its first task, which never fails and is
always accumulated (its energy fits the capacity up to `epsilon`, and so
does the running total `0 + energy`). -/
theorem lookahead_cons_zero (cap d r : ℚ) (rest : List Task)
    (h : d * r ≤ cap + epsilon) :
    lookahead cap 0 ((d, r) :: rest) = lookahead cap (d * r) rest := by
  have h1 : ¬ (cap + epsilon < d * r) := not_lt.mpr h
  have h2 : ¬ (cap + epsilon < 0 + d * r) := by
    push_neg
    linarith
  simp only [lookahead, h1, h2, if_false, zero_add]

/-! ## The segmented planner: termination, closed form, charge invariant -/

/-- Fuel `2 * length + 1` always suffices for the segmented main loop: a
charge iteration leaves the battery at the charge target, which covers the
current task up to `epsilon`, so the next iteration consumes it. -/
theorem segLoop_ne_fuelOut (cap rate : ℚ) (hrate : rate ≠ 0) :
    ∀ (l : List Task) (fuel : ℕ) (b t : ℚ), 2 * l.length + 1 ≤ fuel →
      (∀ p ∈ l, 0 ≤ p.1 * p.2) →
      (segLoop cap rate fuel b t l).1 ≠ SegRes.fuelOut := by
  intro l
  induction l with
  | nil =>
    intro fuel b t hfuel _
    obtain ⟨f, rfl⟩ : ∃ f, fuel = f + 1 := ⟨fuel - 1, by omega⟩
    simp [segLoop]
  | cons p rest ih =>
    obtain ⟨d, r⟩ := p
    intro fuel b t hfuel hl
    have he := hl (d, r) (List.mem_cons_self _ _)
    have hrest := fun q hq => hl q (List.mem_cons_of_mem _ hq)
    simp only at he
    simp only [List.length_cons] at hfuel
    obtain ⟨f, rfl⟩ : ∃ f, fuel = f + 1 := ⟨fuel - 1, by omega⟩
    simp only [segLoop]
    split
    · simp
    · rename_i hdrain
      push_neg at hdrain
      split
      · exact ih f _ _ (by omega) hrest
      · rename_i hble
        push_neg at hble
        cases hla : lookahead cap 0 ((d, r) :: rest) with
        | none => simp
        | some en =>
          simp only
          rw [lookahead_cons_zero cap d r rest hdrain] at hla
          have hen : d * r ≤ en := lookahead_ge_acc cap rest (d * r) en hrest hla
          have hb2 : min (b + (min en cap - b) / rate * rate) cap = min en cap := by
            rw [div_mul_cancel₀ _ hrate]
            rw [add_sub_cancel]
            rw [min_assoc, min_self]
          rw [hb2]
          obtain ⟨f', rfl⟩ : ∃ f', f = f' + 1 := ⟨f - 1, by omega⟩
          simp only [segLoop, not_lt.mpr hdrain, if_false]
          have hcons : d * r - epsilon ≤ min en cap := by
            have := epsilon_pos
            apply le_min
            · linarith
            · linarith
          rw [if_pos hcons]
          exact ih f' _ _ (by omega) hrest

/-- Closed form for the segmented main loop on micro-grid inputs: it always
finishes, with total time `initial total + total duration + (missing
energy) / charge rate` — the same closed form as the greedy loop. -/
theorem segLoop_fst_grid (cap rate : ℚ) (hrate : rate ≠ 0)
    (hgc : Grid cap) :
    ∀ (l : List Task) (fuel : ℕ) (b t : ℚ), 2 * l.length + 1 ≤ fuel →
      0 ≤ b → Grid b →
      (∀ p ∈ l, 0 ≤ p.1 ∧ 0 ≤ p.2 ∧ p.1 * p.2 ≤ cap ∧ Grid (p.1 * p.2)) →
      (segLoop cap rate fuel b t l).1 =
        SegRes.finish (t + sumDur l + max (sumEnergy l - b) 0 / rate) := by
  intro l
  induction l with
  | nil =>
    intro fuel b t hfuel hb _ _
    obtain ⟨f, rfl⟩ : ∃ f, fuel = f + 1 := ⟨fuel - 1, by omega⟩
    have hmax : max (0 - b) 0 = 0 := max_eq_right (by linarith)
    simp only [segLoop, sumDur, sumEnergy, hmax, zero_div, add_zero]
  | cons p rest ih =>
    obtain ⟨d, r⟩ := p
    intro fuel b t hfuel hb hgb hl
    obtain ⟨hd, hr, hcapb, hgr⟩ := hl (d, r) (List.mem_cons_self _ _)
    have hrest := fun q hq => hl q (List.mem_cons_of_mem _ hq)
    have hrestE : ∀ q ∈ rest, 0 ≤ q.1 * q.2 :=
      fun q hq => mul_nonneg (hrest q hq).1 (hrest q hq).2.1
    have he : 0 ≤ d * r := mul_nonneg hd hr
    have hse : 0 ≤ sumEnergy rest := sumEnergy_nonneg rest hrestE
    simp only at hd hr hcapb hgr
    simp only [List.length_cons] at hfuel
    obtain ⟨f, rfl⟩ : ∃ f, fuel = f + 1 := ⟨fuel - 1, by omega⟩
    have hdrain : ¬ (cap + epsilon < d * r) := by
      have := epsilon_pos
      push_neg
      linarith
    simp only [segLoop, hdrain, if_false]
    by_cases hble : d * r - epsilon ≤ b
    · rw [if_pos hble]
      have hdb : d * r ≤ b := (grid_sub_epsilon_le hgr hgb).mp hble
      rw [ih f (b - (d * r)) (t + d) (by omega) (by linarith)
        (grid_sub hgb hgr) hrest]
      congr 1
      have h2 : max (sumEnergy rest - (b - d * r)) 0 =
          max (sumEnergy ((d, r) :: rest) - b) 0 := by
        congr 1
        simp only [sumEnergy]
        ring
      rw [h2]
      simp only [sumDur]
      ring
    · rw [if_neg hble]
      push_neg at hble
      have := epsilon_pos
      have hbd : b < d * r := by linarith
      obtain ⟨en, hla⟩ := lookahead_some cap ((d, r) :: rest) 0
        (fun q hq => (hl q hq).2.2.1)
      rw [hla]
      rw [lookahead_cons_zero cap d r rest (by linarith)] at hla
      have hen : d * r ≤ en := lookahead_ge_acc cap rest (d * r) en hrestE hla
      have henle : en ≤ d * r + sumEnergy rest :=
        lookahead_le_acc_add cap rest (d * r) en hrestE hla
      have hgrid := lookahead_grid cap hgc rest (d * r) en hgr
        (fun q hq => (hrest q hq).2.2.2) hla
      have hencap : en ≤ cap := hgrid.2 hcapb
      have htarget : min en cap = en := min_eq_left hencap
      simp only
      have hb2 : min (b + (min en cap - b) / rate * rate) cap = en := by
        rw [div_mul_cancel₀ _ hrate, add_sub_cancel, min_assoc, min_self, htarget]
      rw [hb2, htarget]
      obtain ⟨f', rfl⟩ : ∃ f', f = f' + 1 := ⟨f - 1, by omega⟩
      simp only [segLoop, hdrain, if_false]
      rw [if_pos (show d * r - epsilon ≤ en by linarith)]
      rw [ih f' (en - d * r) (t + (en - b) / rate + d) (by omega)
        (by linarith) (grid_sub hgrid.1 hgr) hrest]
      congr 1
      have h1 : max (sumEnergy rest - (en - d * r)) 0 =
          sumEnergy rest - (en - d * r) := max_eq_left (by linarith)
      have h2 : max (sumEnergy ((d, r) :: rest) - b) 0 =
          sumEnergy ((d, r) :: rest) - b := by
        apply max_eq_left
        simp only [sumEnergy]
        linarith
      rw [h1, h2]
      simp only [sumDur, sumEnergy]
      ring

/-- Charge invariant of the segmented main loop: every value assigned to
`battery` stays within `[-epsilon, cap]` (the `epsilon` execution tolerance
lets the battery dip below zero by up to `epsilon`). -/
theorem segLoop_snd (cap rate : ℚ) (hrate : rate ≠ 0) (hcap : 0 ≤ cap) :
    ∀ (fuel : ℕ) (l : List Task) (b t : ℚ), -epsilon ≤ b → b ≤ cap →
      (∀ p ∈ l, 0 ≤ p.1 ∧ 0 ≤ p.2) →
      ∀ x ∈ (segLoop cap rate fuel b t l).2, -epsilon ≤ x ∧ x ≤ cap := by
  intro fuel
  induction fuel with
  | zero =>
    intro l b t _ _ _ x hx
    simp [segLoop] at hx
  | succ f ihf =>
    intro l b t hbl hbu hl x hx
    cases l with
    | nil => simp [segLoop] at hx
    | cons p rest =>
      obtain ⟨d, r⟩ := p
      obtain ⟨hd, hr⟩ := hl (d, r) (List.mem_cons_self _ _)
      have hrest := fun q hq => hl q (List.mem_cons_of_mem _ hq)
      have he : 0 ≤ d * r := mul_nonneg hd hr
      simp only at hd hr
      simp only [segLoop] at hx
      split at hx
      · simp at hx
      · rename_i hdrain
        split at hx
        · rename_i hble
          simp only [List.mem_cons] at hx
          rcases hx with rfl | hx
          · exact ⟨by linarith, by linarith⟩
          · exact ihf rest (b - d * r) (t + d) (by linarith) (by linarith) hrest x hx
        · cases hla : lookahead cap 0 ((d, r) :: rest) with
          | none =>
            rw [hla] at hx
            simp at hx
          | some en =>
            rw [hla] at hx
            have hen : 0 ≤ en := lookahead_ge_acc cap ((d, r) :: rest) 0 en
              (fun q hq => mul_nonneg (hl q hq).1 (hl q hq).2) hla
            simp only at hx
            have hb2 : min (b + (min en cap - b) / rate * rate) cap = min en cap := by
              rw [div_mul_cancel₀ _ hrate, add_sub_cancel, min_assoc, min_self]
            rw [hb2] at hx
            have h0 : 0 ≤ min en cap := le_min hen hcap
            have h1 : min en cap ≤ cap := min_le_right _ _
            simp only [List.mem_cons] at hx
            rcases hx with rfl | hx
            · have := epsilon_pos
              exact ⟨by linarith, h1⟩
            · exact ihf ((d, r) :: rest) (min en cap) (t + (min en cap - b) / rate)
                (by linarith [epsilon_pos]) h1 hl x hx

/-! ## The priority scheduler: charge target bounds, termination, invariant -/

/-- Bounds on the charge target computed by the priority scheduler when the
current battery cannot cover the task (`b < en`) and the task fits the
capacity (`en ≤ cap`): the target covers the task, respects the capacity,
and strictly exceeds the current battery — so the `continue` branch of the
source (`if target <= battery`) is never taken. -/
theorem prio_target (cap lim b en te : ℚ) (hen : en ≤ cap) (hb : b < en) :
    en ≤ (if lim * cap < en then min (max te en) cap
          else min (min (max te en) cap) (lim * cap)) ∧
    (if lim * cap < en then min (max te en) cap
     else min (min (max te en) cap) (lim * cap)) ≤ cap ∧
    b < (if lim * cap < en then min (max te en) cap
         else min (min (max te en) cap) (lim * cap)) := by
  have hbase1 : en ≤ min (max te en) cap := le_min (le_max_right _ _) hen
  have hbase2 : min (max te en) cap ≤ cap := min_le_right _ _
  split
  · exact ⟨hbase1, hbase2, lt_of_lt_of_le hb hbase1⟩
  · rename_i hlim
    push_neg at hlim
    exact ⟨le_min hbase1 hlim, le_trans (min_le_left _ _) hbase2,
      lt_of_lt_of_le hb (le_min hbase1 hlim)⟩

/-- Fuel `2 * length + 1` always suffices for the priority main loop, and
the only way it reports a division by zero is a zero `charge_efficiency` or
a zero `charge_rate`: a charge iteration raises the battery exactly to the
target, which covers the current task, so the next iteration consumes it —
the loop never spins. -/
theorem prioLoop_progress (cap rate eff lim : ℚ) :
    ∀ (l : List PTask) (fuel : ℕ) (b t : ℚ), 2 * l.length + 1 ≤ fuel →
      (prioLoop cap rate eff lim fuel b t l).1 ≠ PrioRes.fuelOut ∧
      ((prioLoop cap rate eff lim fuel b t l).1 = PrioRes.divByZero →
        eff = 0 ∨ rate = 0) := by
  intro l
  induction l with
  | nil =>
    intro fuel b t hfuel
    obtain ⟨f, rfl⟩ : ∃ f, fuel = f + 1 := ⟨fuel - 1, by omega⟩
    simp [prioLoop]
  | cons τ rest ih =>
    intro fuel b t hfuel
    simp only [List.length_cons] at hfuel
    obtain ⟨f, rfl⟩ : ∃ f, fuel = f + 1 := ⟨fuel - 1, by omega⟩
    simp only [prioLoop]
    split
    · split
      · simp
      · exact ih f b t (by omega)
    · rename_i hcap1
      push_neg at hcap1
      split
      · exact ih f _ _ (by omega)
      · rename_i hble
        push_neg at hble
        obtain ⟨h1, h2, h3⟩ := prio_target cap lim b (τ.duration * τ.drain_rate)
          (prioLookahead cap lim b 0 (τ :: rest)) hcap1 hble
        rw [if_neg (not_le.mpr h3)]
        split
        · rename_i hz
          exact ⟨by simp, fun _ => hz⟩
        · rename_i hz
          push_neg at hz
          rw [div_mul_cancel₀ _ hz.2, div_mul_cancel₀ _ hz.1, add_sub_cancel,
            min_eq_left h2]
          obtain ⟨f', rfl⟩ : ∃ f', f = f' + 1 := ⟨f - 1, by omega⟩
          simp only [prioLoop]
          rw [if_neg (not_lt.mpr hcap1), if_pos h1]
          exact ih f' _ _ (by omega)

/-- Charge invariant of the priority main loop: every value assigned to
`battery` stays within `[0, cap]` (comparisons are exact here — no
`epsilon` tolerance). -/
theorem prioLoop_snd (cap rate eff lim : ℚ) :
    ∀ (fuel : ℕ) (l : List PTask) (b t : ℚ), 0 ≤ b → b ≤ cap →
      (∀ τ ∈ l, 0 ≤ τ.duration ∧ 0 ≤ τ.drain_rate) →
      ∀ x ∈ (prioLoop cap rate eff lim fuel b t l).2, 0 ≤ x ∧ x ≤ cap := by
  intro fuel
  induction fuel with
  | zero =>
    intro l b t _ _ _ x hx
    simp [prioLoop] at hx
  | succ f ihf =>
    intro l b t hb0 hbc hl x hx
    cases l with
    | nil => simp [prioLoop] at hx
    | cons τ rest =>
      obtain ⟨hd, hr⟩ := hl τ (List.mem_cons_self _ _)
      have hrest := fun q hq => hl q (List.mem_cons_of_mem _ hq)
      have he : 0 ≤ τ.duration * τ.drain_rate := mul_nonneg hd hr
      simp only [prioLoop] at hx
      split at hx
      · split at hx
        · simp at hx
        · exact ihf rest b t hb0 hbc hrest x hx
      · rename_i hcap1
        push_neg at hcap1
        split at hx
        · rename_i hble
          simp only [List.mem_cons] at hx
          rcases hx with rfl | hx
          · exact ⟨by linarith, by linarith⟩
          · exact ihf rest _ _ (by linarith) (by linarith) hrest x hx
        · rename_i hble
          push_neg at hble
          obtain ⟨h1, h2, h3⟩ := prio_target cap lim b (τ.duration * τ.drain_rate)
            (prioLookahead cap lim b 0 (τ :: rest)) hcap1 hble
          rw [if_neg (not_le.mpr h3)] at hx
          split at hx
          · simp at hx
          · rename_i hz
            push_neg at hz
            rw [div_mul_cancel₀ _ hz.2, div_mul_cancel₀ _ hz.1, add_sub_cancel,
              min_eq_left h2] at hx
            simp only [List.mem_cons] at hx
            rcases hx with rfl | hx
            · exact ⟨by linarith, h2⟩
            · exact ihf (τ :: rest) _ _ (by linarith) h2 hl x hx

/-! ## Connecting the schedulers to their preconditions -/

theorem of_anyOverCapacity_eq_false {cap : ℚ} {l : List Task}
    (h : anyOverCapacity cap l = false) : ∀ p ∈ l, p.1 * p.2 ≤ cap := by
  simp only [anyOverCapacity, List.any_eq_false, decide_eq_true_eq] at h
  exact fun p hp => not_lt.mp (h p hp)

theorem pyRound_zero (n : ℕ) : pyRound n 0 = 0 := by
  norm_num [pyRound, roundHalfEven]

/-! ## The claims -/

/-- **C9.** For the empty task sequence, each of the three schedulers
(Greedy, Segmented, Priority) returns `0`, regardless of the battery
parameters (including `charge_rate = 0`). -/
theorem C9_empty_tasks (cap init rate eff lim : ℚ) :
    greedy_algorithm cap init [] rate = 0 ∧
    segmented_charge_planner cap init [] rate = some 0 ∧
    upgraded_battery_scheduler [] cap init rate eff lim = PrioRes.finish 0 := by
  refine ⟨by simp [greedy_algorithm], by simp [segmented_charge_planner], ?_⟩
  unfold upgraded_battery_scheduler
  norm_num [prioLoop, pyRound_zero]

/-- **C5.** For every non-empty task sequence in which every task's energy
demand is at most the capacity, if `charge_rate ≤ 0` then both the Greedy
and the Segmented scheduler return `-1`, even when the initial charge alone
would cover every task. -/
theorem C5_zero_rate_infeasible (cap init rate : ℚ) (tasks : List Task)
    (hne : tasks ≠ []) (hl : ∀ p ∈ tasks, p.1 * p.2 ≤ cap) (hrate : rate ≤ 0) :
    greedy_algorithm cap init tasks rate = -1 ∧
    segmented_charge_planner cap init tasks rate = some (-1) := by
  constructor
  · unfold greedy_algorithm
    rw [if_neg hne, anyOverCapacity_eq_false cap tasks hl]
    simp only [Bool.false_eq_true, if_false]
    rw [if_pos hrate]
  · unfold segmented_charge_planner
    rw [if_neg hne, if_pos hrate]

/-- **C5, witness.** A battery that could already run the task, but with a
zero charge rate: both legacy schedulers still report `-1`. -/
theorem C5_zero_rate_infeasible_witness :
    greedy_algorithm 2 2 [(1, 1)] 0 = -1 ∧
    segmented_charge_planner 2 2 [(1, 1)] 0 = some (-1) := by
  apply C5_zero_rate_infeasible
  · simp
  · intro p hp
    simp only [List.mem_singleton] at hp
    rw [hp]
    norm_num
  · norm_num

/-- **C4.** In the Priority scheduler, a task whose energy demand strictly
exceeds the capacity makes the whole schedule return `-1` immediately when
its priority is `high`; otherwise the task is skipped — the cursor advances
with the battery, the running time and the trace unchanged — and scheduling
continues with the remaining tasks. -/
theorem C4_over_capacity_policy (cap rate eff lim b t : ℚ) (fuel : ℕ)
    (τ : PTask) (rest : List PTask)
    (hover : cap < τ.duration * τ.drain_rate) :
    (τ.priority = Priority.high →
      prioLoop cap rate eff lim (fuel + 1) b t (τ :: rest) =
        (PrioRes.infeasible, [])) ∧
    (τ.priority ≠ Priority.high →
      prioLoop cap rate eff lim (fuel + 1) b t (τ :: rest) =
        prioLoop cap rate eff lim fuel b t rest) := by
  constructor
  · intro hp
    simp only [prioLoop, if_pos hover, if_pos hp]
  · intro hp
    simp only [prioLoop, if_pos hover, if_neg hp]

/-- **C4, witness.** A task of energy `2` against capacity `1`: rejected
when `high`, skipped (the loop proceeds on the rest with the same state)
when `low`. -/
theorem C4_over_capacity_policy_witness :
    prioLoop 1 1 (19 / 20) (9 / 10) 4 0 0 [⟨2, 1, Priority.high⟩] =
      (PrioRes.infeasible, []) ∧
    prioLoop 1 1 (19 / 20) (9 / 10) 4 0 0 [⟨2, 1, Priority.low⟩] =
      prioLoop 1 1 (19 / 20) (9 / 10) 3 0 0 [] := by
  constructor
  · exact (C4_over_capacity_policy 1 1 (19 / 20) (9 / 10) 0 0 3
      ⟨2, 1, Priority.high⟩ [] (by norm_num)).1 rfl
  · exact (C4_over_capacity_policy 1 1 (19 / 20) (9 / 10) 0 0 3
      ⟨2, 1, Priority.low⟩ [] (by norm_num)).2 (by simp)

/-- **C8.** Each scheduler terminates on every finite validated task
sequence.  The greedy scheduler recurses structurally on its task list, so
its model is total by construction.  The segmented loop and the priority
loop are run with fuel `2·n + 1`, and this fuel never runs out: the
segmented planner always returns a value, and the priority loop never
reports `fuelOut` — each of its iterations either advances the cursor or
raises the battery exactly to a target that covers the current task, so the
no-charging branch cannot repeat. -/
theorem C8_termination (cap init rate eff lim cap2 init2 rate2 : ℚ)
    (tasks : List Task) (ptasks : List PTask)
    (hl : ∀ p ∈ tasks, 0 ≤ p.1 * p.2) :
    (segmented_charge_planner cap init tasks rate).isSome = true ∧
    upgraded_battery_scheduler ptasks cap2 init2 rate2 eff lim ≠
      PrioRes.fuelOut := by
  constructor
  · unfold segmented_charge_planner
    by_cases hne : tasks = []
    · rw [if_pos hne]
      rfl
    · rw [if_neg hne]
      by_cases hrate : rate ≤ 0
      · rw [if_pos hrate]
        rfl
      · rw [if_neg hrate]
        push_neg at hrate
        have hfst := segLoop_ne_fuelOut cap rate (ne_of_gt hrate) tasks
          (2 * tasks.length + 1) init 0 le_rfl hl
        rcases hres : (segLoop cap rate (2 * tasks.length + 1) init 0 tasks).1 with
          v | _ | _
        · rfl
        · rfl
        · exact absurd hres hfst
  · unfold upgraded_battery_scheduler
    have hprog := prioLoop_progress cap2 rate2 eff lim ptasks
      (2 * ptasks.length + 1) init2 0 le_rfl
    rcases hres : (prioLoop cap2 rate2 eff lim (2 * ptasks.length + 1) init2 0 ptasks).1
      with v | _ | _ | _
    · simp
    · simp
    · simp
    · exact absurd hres hprog.1

/-- **C8, witness.** Concrete runs of the segmented planner and of the
priority scheduler (the latter with a zero charge rate) both come back. -/
theorem C8_termination_witness :
    (segmented_charge_planner 10 0 [(1, 2)] 1).isSome = true ∧
    upgraded_battery_scheduler [⟨1, 1, Priority.low⟩] 5 0 0 (19 / 20) (9 / 10) ≠
      PrioRes.fuelOut := by
  apply C8_termination
  intro p hp
  simp only [List.mem_singleton] at hp
  rw [hp]
  norm_num

/-- **C2, counterexample.**  The claim says all three schedulers never
raise on validated input (`charge_rate ≥ 0` is validated).  But with
`charge_rate = 0` the priority scheduler divides `to_charge` by the zero
`charge_rate` as soon as a task needs charging: on capacity `1`, initial
charge `0` and the single validated high-priority task `(1, 1)` the Python
source raises `ZeroDivisionError`, modelled here by `PrioRes.divByZero`. -/
theorem C2_counterexample :
    upgraded_battery_scheduler [⟨1, 1, Priority.high⟩] 1 0 0 (19 / 20) (9 / 10) =
      PrioRes.divByZero := by
  norm_num [upgraded_battery_scheduler, prioLoop, prioLookahead]

/-- **C2, amended.**  The Greedy scheduler is a total function by
construction (a structural recursion); the Segmented scheduler always
returns a float on every validated input — including `charge_rate = 0`,
where its `charge_rate ≤ 0` early return guards every division; the
Priority scheduler never exhausts its loop, and it never raises provided
additionally that `charge_rate ≠ 0` (with `charge_efficiency ≠ 0`, which
validation guarantees): its divisors `charge_efficiency` and `charge_rate`
are then non-zero. -/
theorem C2_totality (cap init rate eff lim : ℚ) (tasks : List Task)
    (ptasks : List PTask)
    (hl : ∀ p ∈ tasks, 0 ≤ p.1 ∧ 0 ≤ p.2)
    (heff : eff ≠ 0) :
    (segmented_charge_planner cap init tasks rate).isSome = true ∧
    (rate ≠ 0 →
      upgraded_battery_scheduler ptasks cap init rate eff lim ≠
        PrioRes.divByZero) ∧
    upgraded_battery_scheduler ptasks cap init rate eff lim ≠
      PrioRes.fuelOut := by
  have hE : ∀ p ∈ tasks, 0 ≤ p.1 * p.2 :=
    fun p hp => mul_nonneg (hl p hp).1 (hl p hp).2
  have hprog := prioLoop_progress cap rate eff lim ptasks
    (2 * ptasks.length + 1) init 0 le_rfl
  refine ⟨?_, ?_, ?_⟩
  · unfold segmented_charge_planner
    by_cases hne : tasks = []
    · rw [if_pos hne]
      rfl
    · rw [if_neg hne]
      by_cases hr0 : rate ≤ 0
      · rw [if_pos hr0]
        rfl
      · rw [if_neg hr0]
        push_neg at hr0
        have hfst := segLoop_ne_fuelOut cap rate (ne_of_gt hr0) tasks
          (2 * tasks.length + 1) init 0 le_rfl hE
        rcases hres : (segLoop cap rate (2 * tasks.length + 1) init 0 tasks).1
          with v | _ | _
        · rfl
        · rfl
        · exact absurd hres hfst
  · intro hrate
    unfold upgraded_battery_scheduler
    rcases hres : (prioLoop cap rate eff lim (2 * ptasks.length + 1) init 0 ptasks).1
      with v | _ | _ | _
    · simp
    · simp
    · rcases hprog.2 hres with h | h
      · exact absurd h heff
      · exact absurd h hrate
    · exact absurd hres hprog.1
  · unfold upgraded_battery_scheduler
    rcases hres : (prioLoop cap rate eff lim (2 * ptasks.length + 1) init 0 ptasks).1
      with v | _ | _ | _
    · simp
    · simp
    · simp
    · exact absurd hres hprog.1

/-- **C2, witness.**  The segmented planner returns a value even at the
pivotal `charge_rate = 0` (first application of the theorem, at rate `0`);
with a non-zero rate the priority scheduler neither raises nor spins
(second application, at rate `1`). -/
theorem C2_totality_witness :
    (segmented_charge_planner 2 0 [(1, 1)] 0).isSome = true ∧
    upgraded_battery_scheduler [⟨1, 1, Priority.high⟩] 2 0 1 (19 / 20) (9 / 10) ≠
      PrioRes.divByZero ∧
    upgraded_battery_scheduler [⟨1, 1, Priority.high⟩] 2 0 1 (19 / 20) (9 / 10) ≠
      PrioRes.fuelOut := by
  have hl1 : ∀ p ∈ ([(1, 1)] : List Task), 0 ≤ p.1 ∧ 0 ≤ p.2 := by
    intro p hp
    simp only [List.mem_singleton] at hp
    rw [hp]
    norm_num
  refine ⟨?_, ?_, ?_⟩
  · exact (C2_totality 2 0 0 (19 / 20) (9 / 10) [(1, 1)]
      [⟨1, 1, Priority.high⟩] hl1 (by norm_num)).1
  · exact (C2_totality 2 0 1 (19 / 20) (9 / 10) [(1, 1)]
      [⟨1, 1, Priority.high⟩] hl1 (by norm_num)).2.1 (by norm_num)
  · exact (C2_totality 2 0 1 (19 / 20) (9 / 10) [(1, 1)]
      [⟨1, 1, Priority.high⟩] hl1 (by norm_num)).2.2

/-- **C3, counterexample.**  The claim puts every observed charge in
`[0, capacity]` for all three schedulers.  The segmented planner's
`epsilon` execution tolerance refutes it: on capacity `10`, validated
initial charge `4.9999999995` and the single task `(1, 5)` (energy `5`,
deficit `5e-10 < epsilon`), the task is executed without charging and the
battery variable is assigned `-5e-10 < 0`. -/
theorem C3_counterexample :
    (0 : ℚ) ≤ 9999999999 / 2000000000 ∧
    (9999999999 / 2000000000 : ℚ) ≤ 10 ∧
    segTrace 10 (9999999999 / 2000000000) [(1, 5)] 1 = [-(1 / 2000000000)] ∧
    ¬ (0 : ℚ) ≤ -(1 / 2000000000) := by
  refine ⟨by norm_num, by norm_num, ?_, by norm_num⟩
  norm_num [segTrace, segLoop, epsilon, List.cons_ne_nil]

/-- **C3, amended.**  On validated input the greedy and priority
simulations keep the charge within `[0, capacity]` at every observation
point; the segmented simulation keeps it within `[-epsilon, capacity]` —
its `epsilon` tolerance lets the charge dip below `0` by at most
`epsilon = 1e-9`. -/
theorem C3_charge_invariant (cap init rate eff lim : ℚ) (tasks : List Task)
    (ptasks : List PTask)
    (hinit0 : 0 ≤ init) (hinitc : init ≤ cap)
    (hl : ∀ p ∈ tasks, 0 ≤ p.1 ∧ 0 ≤ p.2)
    (hpl : ∀ τ ∈ ptasks, 0 ≤ τ.duration ∧ 0 ≤ τ.drain_rate) :
    (∀ x ∈ greedyTrace cap init tasks rate, 0 ≤ x ∧ x ≤ cap) ∧
    (∀ x ∈ segTrace cap init tasks rate, -epsilon ≤ x ∧ x ≤ cap) ∧
    (∀ x ∈ prioTrace ptasks cap init rate eff lim, 0 ≤ x ∧ x ≤ cap) := by
  have hcap : 0 ≤ cap := le_trans hinit0 hinitc
  refine ⟨?_, ?_, ?_⟩
  · intro x hx
    unfold greedyTrace at hx
    by_cases hne : tasks = []
    · rw [if_pos hne] at hx
      simp at hx
    · rw [if_neg hne] at hx
      by_cases hany : anyOverCapacity cap tasks = true
      · rw [if_pos hany] at hx
        simp at hx
      · rw [if_neg hany] at hx
        by_cases hr0 : rate ≤ 0
        · rw [if_pos hr0] at hx
          simp at hx
        · rw [if_neg hr0] at hx
          have hfalse : anyOverCapacity cap tasks = false := by
            simpa using hany
          have hcapl := of_anyOverCapacity_eq_false hfalse
          exact greedyLoop_snd cap rate tasks init 0 hinit0 hinitc
            (fun p hp => ⟨(hl p hp).1, (hl p hp).2, hcapl p hp⟩) x hx
  · intro x hx
    unfold segTrace at hx
    by_cases hne : tasks = []
    · rw [if_pos hne] at hx
      simp at hx
    · rw [if_neg hne] at hx
      by_cases hr0 : rate ≤ 0
      · rw [if_pos hr0] at hx
        simp at hx
      · rw [if_neg hr0] at hx
        push_neg at hr0
        exact segLoop_snd cap rate (ne_of_gt hr0) hcap (2 * tasks.length + 1)
          tasks init 0 (by linarith [epsilon_pos]) hinitc hl x hx
  · intro x hx
    unfold prioTrace at hx
    exact prioLoop_snd cap rate eff lim (2 * ptasks.length + 1) ptasks init 0
      hinit0 hinitc hpl x hx

/-- **C3, witness.**  On capacity `100`, initial charge `0`, task `(10, 5)`
and rate `5`, the greedy simulation observes the battery at `50` right
after charging; the invariant theorem places that observation in
`[0, 100]`. -/
theorem C3_charge_invariant_witness : (0 : ℚ) ≤ 50 ∧ (50 : ℚ) ≤ 100 := by
  have h := (C3_charge_invariant 100 0 5 (19 / 20) (9 / 10) [(10, 5)] []
    (by norm_num) (by norm_num)
    (by
      intro p hp
      simp only [List.mem_singleton] at hp
      rw [hp]
      norm_num)
    (by simp)).1 50
  apply h
  norm_num [greedyTrace, greedyLoop, anyOverCapacity, List.cons_ne_nil]

/-- **C6, counterexample.**  The claim (copied from the repository's own
fixture, which also expects `0.6` within `0.2`) is wrong about the code: on
capacity `1`, initial charge `0.5`, the single task `(0.1, 1)` and rate
`1`, the task's energy is `0.1 ≤ 0.5`, no charging is needed, and both
schedulers return `0.1` — not approximately `0.6`. -/
theorem C6_counterexample :
    greedy_algorithm 1 (1 / 2) [(1 / 10, 1)] 1 = 1 / 10 ∧
    segmented_charge_planner 1 (1 / 2) [(1 / 10, 1)] 1 = some (1 / 10) ∧
    ¬ |(1 / 10 : ℚ) - 6 / 10| < 2 / 10 := by
  refine ⟨?_, ?_, by rw [abs_of_nonpos] <;> norm_num⟩
  · norm_num [greedy_algorithm, anyOverCapacity, greedyLoop, pyRound, roundHalfEven,
      List.cons_ne_nil]
  · norm_num [segmented_charge_planner, segLoop, epsilon, pyRound, roundHalfEven,
      List.cons_ne_nil]

/-- **C6, amended.**  For capacity `1.0`, initial charge `0.5`, tasks
`[(0.1, 1)]` and rate `1`, both the Greedy and the Segmented scheduler
return `0.1` (the task's own duration: its energy `0.1` is already
covered by the initial charge, so no idle time is inserted). -/
theorem C6_small_magnitude :
    greedy_algorithm 1 (1 / 2) [(1 / 10, 1)] 1 = 1 / 10 ∧
    segmented_charge_planner 1 (1 / 2) [(1 / 10, 1)] 1 = some (1 / 10) := by
  constructor
  · norm_num [greedy_algorithm, anyOverCapacity, greedyLoop, pyRound, roundHalfEven,
      List.cons_ne_nil]
  · norm_num [segmented_charge_planner, segLoop, epsilon, pyRound, roundHalfEven,
      List.cons_ne_nil]

/-- **C1, counterexample.**  The equivalence claim fails on the code: the
segmented planner's `epsilon` execution tolerance makes it skip a charge
the greedy scheduler performs, and a tiny `charge_rate` amplifies the
difference beyond any tolerance.  Capacity `10`, initial charge
`4.9999999995` (deficit `5e-10 < epsilon` for the task `(1, 5)` of energy
`5 ≤ 10`), rate `1e-12 > 0`: greedy charges for `500` seconds and returns
`501.0`, segmented executes directly and returns `1.0`. -/
theorem C1_counterexample :
    (0 : ℚ) < 1 / 10 ^ 12 ∧
    (1 : ℚ) * 5 ≤ 10 ∧
    (0 : ℚ) ≤ 9999999999 / 2000000000 ∧
    (9999999999 / 2000000000 : ℚ) ≤ 10 ∧
    greedy_algorithm 10 (9999999999 / 2000000000) [(1, 5)] (1 / 10 ^ 12) = 501 ∧
    segmented_charge_planner 10 (9999999999 / 2000000000) [(1, 5)]
      (1 / 10 ^ 12) = some 1 ∧
    ¬ |(501 : ℚ) - 1| ≤ 1 / 100 := by
  refine ⟨by norm_num, by norm_num, by norm_num, by norm_num, ?_, ?_, ?_⟩
  · norm_num [greedy_algorithm, anyOverCapacity, greedyLoop, pyRound, roundHalfEven,
      List.cons_ne_nil]
  · norm_num [segmented_charge_planner, segLoop, epsilon, pyRound, roundHalfEven,
      List.cons_ne_nil]
  · rw [abs_of_nonneg] <;> norm_num

/-- **C1, amended.**  The equivalence does hold — with identical results,
hence well within the `0.01` tolerance — whenever, in addition to the
claim's hypotheses (`charge_rate > 0`, every energy ≤ capacity,
`0 ≤ initial ≤ capacity`, durations and drain rates non-negative), the
capacity, the initial charge and every task energy are integer multiples
of `1e-6`: on that grid every comparison is farther than `epsilon = 1e-9`
from the boundary, the segmented tolerance has no effect, and both
schedulers compute `round(Σ durations + max(Σ energies − initial, 0) /
rate, 1)`. -/
theorem C1_equivalence_on_grid (cap init rate : ℚ) (tasks : List Task)
    (hrate : 0 < rate) (hinit0 : 0 ≤ init) (_hinitc : init ≤ cap)
    (hgc : Grid cap) (hgi : Grid init)
    (hl : ∀ p ∈ tasks, 0 ≤ p.1 ∧ 0 ≤ p.2 ∧ p.1 * p.2 ≤ cap ∧ Grid (p.1 * p.2)) :
    segmented_charge_planner cap init tasks rate =
      some (greedy_algorithm cap init tasks rate) := by
  by_cases hne : tasks = []
  · subst hne
    simp [segmented_charge_planner, greedy_algorithm]
  · unfold segmented_charge_planner greedy_algorithm
    rw [if_neg hne, if_neg hne]
    have hr0 : ¬ rate ≤ 0 := not_le.mpr hrate
    rw [if_neg hr0]
    have hfalse : anyOverCapacity cap tasks = false :=
      anyOverCapacity_eq_false cap tasks fun p hp => (hl p hp).2.2.1
    rw [hfalse]
    simp only [Bool.false_eq_true, if_false]
    rw [if_neg hr0]
    rw [segLoop_fst_grid cap rate (ne_of_gt hrate) hgc tasks
      (2 * tasks.length + 1) init 0 le_rfl hinit0 hgi hl]
    rw [greedyLoop_fst cap rate tasks init 0 hinit0
      (fun p hp => ⟨(hl p hp).1, (hl p hp).2.1, (hl p hp).2.2.1⟩)]

/-- **C1, witness.**  Capacity `10`, initial charge `5`, tasks
`[(1, 5), (2, 3)]`, rate `2` — all on the grid: the two schedulers agree
(both compute `6.0`). -/
theorem C1_equivalence_on_grid_witness :
    segmented_charge_planner 10 5 [(1, 5), (2, 3)] 2 =
      some (greedy_algorithm 10 5 [(1, 5), (2, 3)] 2) := by
  apply C1_equivalence_on_grid
  · norm_num
  · norm_num
  · norm_num
  · exact ⟨10000000, by norm_num⟩
  · exact ⟨5000000, by norm_num⟩
  · intro p hp
    simp only [List.mem_cons, List.not_mem_nil, or_false] at hp
    rcases hp with rfl | rfl
    · exact ⟨by norm_num, by norm_num, by norm_num, ⟨5000000, by norm_num⟩⟩
    · exact ⟨by norm_num, by norm_num, by norm_num, ⟨6000000, by norm_num⟩⟩

/-- **C7, counterexample.**  The claim says the Priority scheduler also
applies a `1e-9` tolerance when deciding whether the charge suffices.  It
does not: `main.py` compares `battery >= energy_needed` exactly.  With
capacity `10`, initial charge `4.9999999995` (below the task `(1, 5,
high)`'s energy `5` by `5e-10 < epsilon`) and rate `1e-12`, the priority
scheduler inserts a charge of `526.3…` seconds and returns `527.32` —
instead of executing the task directly for a total of `1.0` as the claim
demands. -/
theorem C7_counterexample :
    (9999999999 / 2000000000 : ℚ) < 1 * 5 ∧
    (1 : ℚ) * 5 - 9999999999 / 2000000000 < epsilon ∧
    upgraded_battery_scheduler [⟨1, 5, Priority.high⟩] 10
      (9999999999 / 2000000000) (1 / 10 ^ 12) (19 / 20) (9 / 10) =
      PrioRes.finish (13183 / 25) ∧
    (13183 / 25 : ℚ) ≠ pyRound 2 1 := by
  refine ⟨by norm_num, by norm_num [epsilon], ?_, ?_⟩
  · norm_num [upgraded_battery_scheduler, prioLoop, prioLookahead, pyRound,
      roundHalfEven]
  · norm_num [pyRound, roundHalfEven]

/-- **C7, amended.**  Only the Segmented scheduler applies the `1e-9`
tolerance: whenever the charge is below the reached task's demand by less
than `epsilon` (first conjunct's hypotheses), it executes the task without
inserting charging time.  Both the Greedy scheduler and the Priority
scheduler compare exactly and insert charging time for any positive
deficit: greedy takes its charge branch whenever the charge is strictly
below the capped demand, and the priority loop charges to `prioTarget` —
strictly above the current charge — before re-examining the same task. -/
theorem C7_epsilon_asymmetry (cap rate eff lim b t d r : ℚ) (fuel : ℕ)
    (rest : List Task) (τ : PTask) (prest : List PTask)
    (hseg1 : ¬ (cap + epsilon < d * r)) (hseg2 : d * r - epsilon ≤ b)
    (hgr : b < min (d * r) cap)
    (hpr1 : ¬ (cap < τ.duration * τ.drain_rate))
    (hpr2 : b < τ.duration * τ.drain_rate)
    (heff : eff ≠ 0) (hrate : rate ≠ 0) :
    segLoop cap rate (fuel + 1) b t ((d, r) :: rest) =
      ((segLoop cap rate fuel (b - d * r) (t + d) rest).1,
        (b - d * r) :: (segLoop cap rate fuel (b - d * r) (t + d) rest).2) ∧
    greedyLoop cap rate b t ((d, r) :: rest) =
      ((greedyLoop cap rate (min (d * r) cap - d * r)
          (t + (min (d * r) cap - b) / rate + d) rest).1,
        min (d * r) cap :: (min (d * r) cap - d * r) ::
          (greedyLoop cap rate (min (d * r) cap - d * r)
            (t + (min (d * r) cap - b) / rate + d) rest).2) ∧
    b < prioTarget cap lim b τ prest ∧
    prioLoop cap rate eff lim (fuel + 1) b t (τ :: prest) =
      ((prioLoop cap rate eff lim fuel (prioTarget cap lim b τ prest)
          (t + (prioTarget cap lim b τ prest - b) / eff / rate) (τ :: prest)).1,
        prioTarget cap lim b τ prest ::
          (prioLoop cap rate eff lim fuel (prioTarget cap lim b τ prest)
            (t + (prioTarget cap lim b τ prest - b) / eff / rate)
            (τ :: prest)).2) := by
  have hpr1' : τ.duration * τ.drain_rate ≤ cap := not_lt.mp hpr1
  obtain ⟨hT1, hT2, hT3⟩ := prio_target cap lim b (τ.duration * τ.drain_rate)
    (prioLookahead cap lim b 0 (τ :: prest)) hpr1' hpr2
  refine ⟨?_, ?_, ?_, ?_⟩
  · simp only [segLoop, if_neg hseg1, if_pos hseg2]
  · simp only [greedyLoop, if_pos hgr]
  · simp only [prioTarget]
    exact hT3
  · simp only [prioLoop, prioTarget, if_neg hpr1, if_neg (not_le.mpr hpr2),
      if_neg (not_le.mpr hT3)]
    rw [if_neg (not_or.mpr ⟨heff, hrate⟩)]
    rw [div_mul_cancel₀ _ hrate, div_mul_cancel₀ _ heff, add_sub_cancel,
      min_eq_left hT2]

/-- **C7, witness.**  A deficit of `5e-10 < epsilon` against the task
energy: the priority charge target strictly exceeds the current charge, so
a charge step is inserted (while the segmented planner, per the same
theorem, executes its task directly). -/
theorem C7_epsilon_asymmetry_witness :
    (9999999999 / 2000000000 : ℚ) <
      prioTarget 10 (9 / 10) (9999999999 / 2000000000) ⟨2, 5, Priority.high⟩ [] := by
  exact (C7_epsilon_asymmetry 10 2 (19 / 20) (9 / 10) (9999999999 / 2000000000)
    0 1 5 1 [] ⟨2, 5, Priority.high⟩ []
    (by norm_num [epsilon]) (by norm_num [epsilon])
    (by norm_num) (by norm_num) (by norm_num)
    (by norm_num) (by norm_num)).2.2.1

/-- **C10.**  A task whose energy demand equals the capacity exactly is
schedulable by all three schedulers when `charge_rate > 0`: the
over-capacity checks are strict, so greedy returns a non-negative total
(not `-1`), the segmented planner returns a non-negative total (not `-1`),
and the priority scheduler — for any priority — neither rejects nor skips
the task: it returns a non-negative total and, when the initial charge is
below capacity, charges to full capacity (trace `[cap, 0]`), overriding
the health cap, to run the task. -/
theorem C10_exact_capacity_schedulable (cap init rate eff lim d r : ℚ)
    (prio : Priority)
    (hcap : 0 < cap) (he : d * r = cap) (hd : 0 ≤ d)
    (hinit0 : 0 ≤ init) (hinitc : init ≤ cap)
    (hrate : 0 < rate) (heff : 0 < eff) :
    0 ≤ greedy_algorithm cap init [(d, r)] rate ∧
    greedy_algorithm cap init [(d, r)] rate ≠ -1 ∧
    (∀ v, segmented_charge_planner cap init [(d, r)] rate = some v → 0 ≤ v) ∧
    segmented_charge_planner cap init [(d, r)] rate ≠ some (-1) ∧
    (∀ v, upgraded_battery_scheduler [⟨d, r, prio⟩] cap init rate eff lim =
      PrioRes.finish v → 0 ≤ v) ∧
    upgraded_battery_scheduler [⟨d, r, prio⟩] cap init rate eff lim ≠
      PrioRes.infeasible ∧
    (init < cap →
      prioTrace [⟨d, r, prio⟩] cap init rate eff lim = [cap, 0]) := by
  subst he
  have hrate' : rate ≠ 0 := ne_of_gt hrate
  have heff' : eff ≠ 0 := ne_of_gt heff
  have heps := epsilon_pos
  -- the greedy scheduler
  have hany : anyOverCapacity (d * r) [(d, r)] = false := by
    apply anyOverCapacity_eq_false
    intro p hp
    simp only [List.mem_singleton] at hp
    rw [hp]
  have hgval : greedy_algorithm (d * r) init [(d, r)] rate =
      pyRound 1 (0 + (d + 0) + max (d * r + 0 - init) 0 / rate) := by
    unfold greedy_algorithm
    rw [if_neg (by simp), hany]
    simp only [Bool.false_eq_true, if_false]
    rw [if_neg (not_le.mpr hrate)]
    rw [greedyLoop_fst (d * r) rate [(d, r)] init 0 hinit0]
    · simp only [sumDur, sumEnergy]
    · intro p hp
      simp only [List.mem_singleton] at hp
      rw [hp]
      exact ⟨hd, by nlinarith, le_rfl⟩
  have hg0 : 0 ≤ greedy_algorithm (d * r) init [(d, r)] rate := by
    rw [hgval]
    apply pyRound_nonneg
    have h1 : 0 ≤ max (d * r + 0 - init) 0 / rate :=
      div_nonneg (le_max_right _ _) (le_of_lt hrate)
    linarith
  -- the segmented planner: evaluate its three loop steps
  have hseg : (segLoop (d * r) rate 3 init 0 [(d, r)]).1 =
      SegRes.finish (if d * r - epsilon ≤ init then 0 + d
        else 0 + (min (d * r) (d * r) - init) / rate + d) := by
    have hc1 : ¬ (d * r + epsilon < d * r) := by
      push_neg
      linarith
    by_cases hble : d * r - epsilon ≤ init
    · rw [if_pos hble]
      show (segLoop (d * r) rate (2 + 1) init 0 [(d, r)]).1 = _
      simp only [segLoop, if_neg hc1, if_pos hble]
    · rw [if_neg hble]
      push_neg at hble
      show (segLoop (d * r) rate (2 + 1) init 0 [(d, r)]).1 = _
      simp only [segLoop, if_neg hc1, if_neg (not_le.mpr hble)]
      rw [lookahead_cons_zero (d * r) d r [] (by linarith)]
      simp only [lookahead]
      have hb2 : min (init + (min (d * r) (d * r) - init) / rate * rate) (d * r) =
          min (d * r) (d * r) := by
        rw [div_mul_cancel₀ _ hrate', add_sub_cancel, min_self, min_self]
      rw [hb2]
      have hcons : d * r - epsilon ≤ min (d * r) (d * r) := by
        rw [min_self]
        linarith
      simp only [segLoop, if_neg hc1, if_pos hcons]
  have hsegval : segmented_charge_planner (d * r) init [(d, r)] rate =
      some (pyRound 1 (if d * r - epsilon ≤ init then 0 + d
        else 0 + (min (d * r) (d * r) - init) / rate + d)) := by
    unfold segmented_charge_planner
    rw [if_neg (by simp), if_neg (not_le.mpr hrate)]
    have h3 : 2 * List.length [(d, r)] + 1 = 3 := by simp
    rw [h3, hseg]
  have hsval : 0 ≤ pyRound 1 (if d * r - epsilon ≤ init then 0 + d
      else 0 + (min (d * r) (d * r) - init) / rate + d) := by
    apply pyRound_nonneg
    split
    · linarith
    · rename_i hble
      push_neg at hble
      rw [min_self]
      have : 0 ≤ (d * r - init) / rate := div_nonneg (by linarith) (le_of_lt hrate)
      linarith
  -- the priority scheduler: evaluate its three loop steps
  have hp1 : ¬ (d * r < (⟨d, r, prio⟩ : PTask).duration * (⟨d, r, prio⟩ : PTask).drain_rate) := by
    simp only
    exact lt_irrefl _
  have hprio : upgraded_battery_scheduler [⟨d, r, prio⟩] (d * r) init rate eff lim =
        PrioRes.finish (pyRound 2 (if d * r ≤ init then 0 + d
          else 0 + (d * r - init) / eff / rate + d)) ∧
      (init < d * r →
        prioTrace [⟨d, r, prio⟩] (d * r) init rate eff lim = [d * r, 0]) := by
    by_cases hble : d * r ≤ init
    · constructor
      · unfold upgraded_battery_scheduler
        show (match (prioLoop (d * r) rate eff lim (2 + 1) init 0 [⟨d, r, prio⟩]).1 with
          | PrioRes.finish t => PrioRes.finish (pyRound 2 t)
          | e => e) = _
        simp only [prioLoop, if_neg hp1, if_pos hble]
      · intro hlt
        exact absurd hble (not_le.mpr hlt)
    · push_neg at hble
      obtain ⟨hT1, hT2, hT3⟩ := prio_target (d * r) lim init (d * r)
        (prioLookahead (d * r) lim init 0 [⟨d, r, prio⟩]) le_rfl hble
      have hTeq : (if lim * (d * r) < d * r then
          min (max (prioLookahead (d * r) lim init 0 [⟨d, r, prio⟩]) (d * r)) (d * r)
        else min (min (max (prioLookahead (d * r) lim init 0 [⟨d, r, prio⟩]) (d * r))
          (d * r)) (lim * (d * r))) = d * r := le_antisymm hT2 hT1
      have hstep : (prioLoop (d * r) rate eff lim (2 + 1) init 0 [⟨d, r, prio⟩]) =
          ((prioLoop (d * r) rate eff lim 1 (d * r - d * r)
              (0 + (d * r - init) / eff / rate + d) []).1,
            d * r :: (d * r - d * r) ::
              (prioLoop (d * r) rate eff lim 1 (d * r - d * r)
                (0 + (d * r - init) / eff / rate + d) []).2) := by
        simp only [prioLoop, if_neg hp1, if_neg (not_le.mpr hble)]
        rw [hTeq]
        rw [if_neg (not_le.mpr hble), if_neg (not_or.mpr ⟨heff', hrate'⟩)]
        rw [div_mul_cancel₀ _ hrate', div_mul_cancel₀ _ heff', add_sub_cancel,
          min_self]
        simp only [prioLoop, if_neg hp1, if_pos (le_refl (d * r))]
      constructor
      · unfold upgraded_battery_scheduler
        show (match (prioLoop (d * r) rate eff lim (2 + 1) init 0 [⟨d, r, prio⟩]).1 with
          | PrioRes.finish t => PrioRes.finish (pyRound 2 t)
          | e => e) = _
        rw [hstep]
        simp only [prioLoop]
        rw [if_neg (not_le.mpr hble)]
      · intro _
        unfold prioTrace
        show (prioLoop (d * r) rate eff lim (2 + 1) init 0 [⟨d, r, prio⟩]).2 = _
        rw [hstep]
        simp only [prioLoop, sub_self]
  have hpval : 0 ≤ pyRound 2 (if d * r ≤ init then 0 + d
      else 0 + (d * r - init) / eff / rate + d) := by
    apply pyRound_nonneg
    split
    · linarith
    · rename_i hble
      push_neg at hble
      have h1 : 0 ≤ (d * r - init) / eff / rate :=
        div_nonneg (div_nonneg (by linarith) (le_of_lt heff)) (le_of_lt hrate)
      linarith
  refine ⟨hg0, ?_, ?_, ?_, ?_, ?_, hprio.2⟩
  · intro hcon
    rw [hcon] at hg0
    norm_num at hg0
  · intro v hv
    rw [hsegval] at hv
    simp only [Option.some.injEq] at hv
    rw [← hv]
    exact hsval
  · rw [hsegval]
    intro hcon
    simp only [Option.some.injEq] at hcon
    rw [hcon] at hsval
    norm_num at hsval
  · intro v hv
    rw [hprio.1] at hv
    simp only [PrioRes.finish.injEq] at hv
    rw [← hv]
    exact hpval
  · rw [hprio.1]
    intro hcon
    exact absurd hcon (by simp)

/-- **C10, witness.**  The repository's own fixture "Task = exact
capacity": capacity `100`, initial charge `0`, task `(10, 10)` (energy
exactly `100`), rate `10`.  All three schedulers run it; the priority
scheduler charges to full capacity first. -/
theorem C10_exact_capacity_schedulable_witness :
    0 ≤ greedy_algorithm 100 0 [(10, 10)] 10 ∧
    prioTrace [⟨10, 10, Priority.med⟩] 100 0 10 (19 / 20) (9 / 10) = [100, 0] := by
  have h := C10_exact_capacity_schedulable 100 0 10 (19 / 20) (9 / 10) 10 10
    Priority.med (by norm_num) (by norm_num) (by norm_num) (by norm_num)
    (by norm_num) (by norm_num) (by norm_num)
  exact ⟨h.1, h.2.2.2.2.2.2 (by norm_num)⟩

end BatterySched
